import Mathlib

set_option maxHeartbeats 1000000

/-!
Shallow embedding of three pieces of the vespa repository:

* `searchlib/src/vespa/searchlib/fef/phrase_splitter_query_env.h` —
  `PhraseSplitterQueryEnv`, the facade that splits phrase terms of a query
  environment into separate single terms.  The header declares the data
  members, `getNumTerms`, `getTerm` and the forwarding accessors inline;
  the construction algorithm (`considerTerm` / the constructor) and the
  per-document match-data propagation are declared but their translation
  unit is not part of the sources, so those are modelled from the spec.
* `vespalib/src/vespa/vespalib/util/alloc.h` — `roundUp2inN` and the
  `Alloc` move/clear/create operations.
-/

/-- A query term as seen through the `ITermData` capability: sub-term count
(phrase length), the referenced field ids, and the associated match-data
handle. -/
structure TermData where
  numTerms : Nat
  fields : List Nat
  handle : Nat
deriving DecidableEq

/-- The wrapped `IQueryEnvironment` capability: a term list plus the context
accessors that the facade forwards.  The accessor payloads carry no structure
the facade inspects, so they are modelled as plain values. -/
structure QueryEnv where
  terms : List TermData
  properties : Nat
  location : Nat
  attributeContext : Nat
  indexEnvironment : Nat
  averageFieldLength : String → Nat

/-- `IQueryEnvironment::getTerm`: term by index, null when out of range. -/
def QueryEnv.getTerm (env : QueryEnv) (i : Nat) : Option TermData :=
  env.terms[i]?

def QueryEnv.getNumTerms (env : QueryEnv) : Nat := env.terms.length

def QueryEnv.getProperties (env : QueryEnv) : Nat := env.properties

def QueryEnv.getLocation (env : QueryEnv) : Nat := env.location

def QueryEnv.getAttributeContext (env : QueryEnv) : Nat := env.attributeContext

def QueryEnv.getIndexEnvironment (env : QueryEnv) : Nat := env.indexEnvironment

def QueryEnv.get_average_field_length (env : QueryEnv) (s : String) : Nat :=
  env.averageFieldLength s

/-- `PhraseSplitterQueryEnv::TermIdx` from the header: index into either the
wrapped query environment or the vector of synthesized `TermData` objects,
plus the flag saying which. -/
structure TermIdx where
  idx : Nat
  splitted : Bool
deriving DecidableEq

/-- `PhraseSplitterQueryEnv::HowToCopy` from the header: one match-data
propagation instruction per synthesized sub-term. -/
structure HowToCopy where
  orig_handle : Nat
  split_handle : Nat
  offsetInPhrase : Nat
deriving DecidableEq

/-- The `PhraseSplitterQueryEnv` data members from the header: the wrapped
environment, the synthesized terms, the propagation instructions, the term
renumbering map and the largest original handle. -/
structure PhraseSplitterQueryEnv where
  queryEnv : QueryEnv
  terms : List TermData
  copyInfo : List HowToCopy
  termIdxMap : List TermIdx
  maxHandle : Nat

/-- `PhraseSplitterQueryEnv::getNumTerms` from the header:
`return _termIdxMap.size();`. -/
def PhraseSplitterQueryEnv.getNumTerms (ps : PhraseSplitterQueryEnv) : Nat :=
  ps.termIdxMap.length

/-- `PhraseSplitterQueryEnv::getTerm` from the header: `nullptr` when
`idx >= _termIdxMap.size()`, otherwise resolve through the `TermIdx` entry
into either the synthesized-term vector or the wrapped environment. -/
def PhraseSplitterQueryEnv.getTerm (ps : PhraseSplitterQueryEnv) (idx : Nat) :
    Option TermData :=
  match ps.termIdxMap[idx]? with
  | none => none
  | some ti => if ti.splitted then ps.terms[ti.idx]? else ps.queryEnv.getTerm ti.idx

/-- `getProperties` from the header: `return _queryEnv.getProperties();`. -/
def PhraseSplitterQueryEnv.getProperties (ps : PhraseSplitterQueryEnv) : Nat :=
  ps.queryEnv.getProperties

/-- `getLocation` from the header: `return _queryEnv.getLocation();`. -/
def PhraseSplitterQueryEnv.getLocation (ps : PhraseSplitterQueryEnv) : Nat :=
  ps.queryEnv.getLocation

/-- `getAttributeContext` from the header:
`return _queryEnv.getAttributeContext();`. -/
def PhraseSplitterQueryEnv.getAttributeContext (ps : PhraseSplitterQueryEnv) : Nat :=
  ps.queryEnv.getAttributeContext

/-- `get_average_field_length` from the header:
`return _queryEnv.get_average_field_length(field_name);`. -/
def PhraseSplitterQueryEnv.get_average_field_length (ps : PhraseSplitterQueryEnv)
    (s : String) : Nat :=
  ps.queryEnv.get_average_field_length s

/-- `getIndexEnvironment` from the header:
`return _queryEnv.getIndexEnvironment();`. -/
def PhraseSplitterQueryEnv.getIndexEnvironment (ps : PhraseSplitterQueryEnv) : Nat :=
  ps.queryEnv.getIndexEnvironment

/-- Modelled from the spec: the split test of the construction algorithm
(`considerTerm` lives in the missing translation unit).  Spec 4.1: a term is
passed through when "the term's sub-term count is 1, OR the term does not
reference the target field"; otherwise it is a split phrase. -/
def isSplitPhrase (fieldId : Nat) (t : TermData) : Bool :=
  decide (t.numTerms ≠ 1) && t.fields.contains fieldId

/-- Modelled from the spec: the accumulator threaded through the one-pass
construction scan — synthesized terms, propagation instructions, the term
index map, and the next fresh handle. -/
structure BuildState where
  terms : List TermData
  copyInfo : List HowToCopy
  termIdxMap : List TermIdx
  nextHandle : Nat

/-- Modelled from the spec: `PhraseSplitterQueryEnv::considerTerm` (declared
in the header, defined in the missing translation unit).  Spec 4.1: a
pass-through term appends `{slot_index: i, is_synthesized: false}`; a split
phrase appends, for each sub-term position `k < sub_term_count`, a
synthesized single term cloning the phrase's field metadata restricted to the
target field, a map entry pointing at the new collection slot, and a
propagation instruction `{original_handle, newly_allocated, k}` with handles
assigned sequentially. -/
def considerTerm (fieldId : Nat) (origIdx : Nat) (t : TermData) (st : BuildState) :
    BuildState :=
  if isSplitPhrase fieldId t then
    { terms := st.terms ++ (List.range t.numTerms).map
        (fun k => { numTerms := 1, fields := [fieldId], handle := st.nextHandle + k }),
      copyInfo := st.copyInfo ++ (List.range t.numTerms).map
        (fun k => { orig_handle := t.handle, split_handle := st.nextHandle + k,
                    offsetInPhrase := k }),
      termIdxMap := st.termIdxMap ++ (List.range t.numTerms).map
        (fun k => { idx := st.terms.length + k, splitted := true }),
      nextHandle := st.nextHandle + t.numTerms }
  else
    { st with termIdxMap := st.termIdxMap ++ [{ idx := origIdx, splitted := false }] }

/-- Modelled from the spec: the construction scan over the wrapped
environment's terms in their natural order, carrying the original index. -/
def buildLoop (fieldId : Nat) : Nat → List TermData → BuildState → BuildState
  | _, [], st => st
  | i, t :: ts, st => buildLoop fieldId (i + 1) ts (considerTerm fieldId i t st)

/-- Modelled from the spec: the scan of all original terms for the largest
handle (`_maxHandle`, "the largest among original term field handles"). -/
def maxHandleOf (env : QueryEnv) : Nat :=
  env.terms.foldl (fun m t => max m t.handle) 0

/-- Modelled from the spec: the `PhraseSplitterQueryEnv` constructor (declared
in the header, defined in the missing translation unit).  Spec 4.1: scan all
original terms once to find `max_handle`; synthesized handles are assigned
sequentially starting at `max_handle + 1`; then process each term in order. -/
def mkSplitter (env : QueryEnv) (fieldId : Nat) : PhraseSplitterQueryEnv :=
  let maxH := maxHandleOf env
  let st := buildLoop fieldId 0 env.terms
    { terms := [], copyInfo := [], termIdxMap := [], nextHandle := maxH + 1 }
  { queryEnv := env, terms := st.terms, copyInfo := st.copyInfo,
    termIdxMap := st.termIdxMap, maxHandle := maxH }

/-- One recorded occurrence: position plus element id and weight metadata. -/
structure Position where
  position : Nat
  elementId : Nat
  elementWeight : Int
deriving DecidableEq

/-- The per-handle match data entry: field identifier plus the ordered
occurrence list. -/
structure TermFieldMatchData where
  fieldId : Nat
  positions : List Position
deriving DecidableEq

/-- The bound match-data structure for the current document, keyed by
handle (get-by-handle view). -/
def MatchData : Type := Nat → TermFieldMatchData

/-- Set-by-handle on the bound match data: replaces the entry for one
handle, leaving all others unchanged. -/
def MatchData.setHandle (md : MatchData) (h : Nat) (e : TermFieldMatchData) :
    MatchData :=
  fun x => if x = h then e else md x

/-- Modelled from the spec: the position correction — add the sub-term's
offset in the phrase to every occurrence position, preserving field,
element and weight metadata otherwise unchanged. -/
def TermFieldMatchData.shifted (e : TermFieldMatchData) (k : Nat) :
    TermFieldMatchData :=
  { fieldId := e.fieldId,
    positions := e.positions.map (fun p => { p with position := p.position + k }) }

/-- Modelled from the spec: one Match-Data Bridge step (the implementation of
the update operation is in the missing translation unit).  Spec 4.3: fetch
the entry under `original_handle`, shift it by `offset_in_phrase`, and store
it under `synthesized_handle`, replacing any prior value. -/
def copyOne (md : MatchData) (c : HowToCopy) : MatchData :=
  md.setHandle c.split_handle ((md c.orig_handle).shifted c.offsetInPhrase)

/-- Modelled from the spec: the Match-Data Bridge — apply every propagation
instruction, in order, to the bound match data. -/
def PhraseSplitterQueryEnv.update (ps : PhraseSplitterQueryEnv) (md : MatchData) :
    MatchData :=
  ps.copyInfo.foldl copyOne md

/-- Number of synthesized sub-terms a term contributes (spec 4.1 case 2). -/
def synthCount (fieldId : Nat) (t : TermData) : Nat :=
  if isSplitPhrase fieldId t then t.numTerms else 0

/-- Total number of synthesized sub-terms over a term list. -/
def totalSynth (fieldId : Nat) (ts : List TermData) : Nat :=
  (ts.map (synthCount fieldId)).sum

/-- Closed form, following the spec's words, of the synthesized-term arena:
per original term, in order, a split phrase contributes its sub-terms with
sequential handles, a pass-through term contributes nothing. -/
def synthTermsOf (fieldId : Nat) : Nat → List TermData → List TermData
  | _, [] => []
  | h0, t :: ts =>
    if isSplitPhrase fieldId t then
      (List.range t.numTerms).map
        (fun k => { numTerms := 1, fields := [fieldId], handle := h0 + k })
        ++ synthTermsOf fieldId (h0 + t.numTerms) ts
    else synthTermsOf fieldId h0 ts

/-- Closed form, following the spec's words, of the propagation instruction
list: per split phrase, one instruction per sub-term offset `k`, with
sequential synthesized handles. -/
def copyInfoOf (fieldId : Nat) : Nat → List TermData → List HowToCopy
  | _, [] => []
  | h0, t :: ts =>
    if isSplitPhrase fieldId t then
      (List.range t.numTerms).map
        (fun k => { orig_handle := t.handle, split_handle := h0 + k,
                    offsetInPhrase := k })
        ++ copyInfoOf fieldId (h0 + t.numTerms) ts
    else copyInfoOf fieldId h0 ts

/-- Closed form, following the spec's words, of the Term Index Map: public
slots preserve the original terms' relative order; a split phrase's
sub-terms occupy consecutive public slots in ascending sub-term-position
order, replacing the one original slot; a pass-through term keeps one slot
pointing at its original index. -/
def idxMapOf (fieldId : Nat) : Nat → Nat → List TermData → List TermIdx
  | _, _, [] => []
  | i, b, t :: ts =>
    if isSplitPhrase fieldId t then
      (List.range t.numTerms).map (fun k => { idx := b + k, splitted := true })
        ++ idxMapOf fieldId (i + 1) (b + t.numTerms) ts
    else { idx := i, splitted := false } :: idxMapOf fieldId (i + 1) b ts

/-- Modelled from the spec: `Optimized::msbIdx` (vespalib/util/optimized.h is
not under src/) returns the bit index of the most significant set bit of its
argument — the floor of the base-2 logarithm — taken as 0 for input 0.
Structural fuel-based formulation so that it evaluates; `msbIdxAux fuel v`
computes it whenever `v ≤ fuel`. -/
def msbIdxAux (fuel v : Nat) : Nat :=
  match fuel with
  | 0 => 0
  | fuel + 1 => if 2 ≤ v then msbIdxAux fuel (v / 2) + 1 else 0

/-- Modelled from the spec: `Optimized::msbIdx`, see `msbIdxAux`. -/
def msbIdx (v : Nat) : Nat := msbIdxAux v v

/-- `roundUp2inN` from alloc.h: `return 2ul << Optimized::msbIdx(minimum - 1);`
on 64-bit `size_t`: the decrement and the shift both wrap modulo `2 ^ 64`. -/
def roundUp2inN (minimum : Nat) : Nat :=
  2 * 2 ^ msbIdx ((minimum + (2 ^ 64 - 1)) % 2 ^ 64) % 2 ^ 64

/-- `Alloc` from alloc.h: the `_alloc` pointer/size pair plus the
`_allocator` pointer.  Pointers are modelled as `Option Nat`, `none` being
null. -/
structure Alloc where
  ptr : Option Nat
  sz : Nat
  allocator : Option Nat
deriving DecidableEq

/-- `Alloc::get` from alloc.h: `return _alloc.first;`. -/
def Alloc.get (a : Alloc) : Option Nat := a.ptr

/-- `Alloc::size` from alloc.h: `return _alloc.second;`. -/
def Alloc.size (a : Alloc) : Nat := a.sz

/-- `Alloc::clear` from alloc.h: null the pointer, zero the size, null the
allocator. -/
def Alloc.clear (_a : Alloc) : Alloc :=
  { ptr := none, sz := 0, allocator := none }

/-- The `Alloc` move constructor from alloc.h: copy `_alloc` and `_allocator`
from `rhs`, then `rhs.clear()`.  Returns the pair (constructed value,
moved-from rhs). -/
def Alloc.moveCtor (rhs : Alloc) : Alloc × Alloc :=
  ({ ptr := rhs.ptr, sz := rhs.sz, allocator := rhs.allocator }, rhs.clear)

/-- Modelled from the spec: `Alloc::operator=(Alloc&&)` is declared in
alloc.h but defined in alloc.cpp, which is not under src/.  Mirroring the
move constructor and `clear`, assignment from a distinct `rhs` takes over
rhs's pointer, size and allocator and leaves `rhs` cleared.  Returns the
pair (assigned-to value, moved-from rhs). -/
def Alloc.moveAssign (_lhs rhs : Alloc) : Alloc × Alloc :=
  ({ ptr := rhs.ptr, sz := rhs.sz, allocator := rhs.allocator }, rhs.clear)

/-- Modelled from the spec: the private allocating constructor
`Alloc(allocator, sz)` is defined in alloc.cpp (not under src/); it produces
an allocation of `sz` bytes under the given allocator, modelled with an
unspecified nonnull pointer. -/
def Alloc.allocate (allocator : Option Nat) (sz : Nat) : Alloc :=
  { ptr := some 1, sz := sz, allocator := allocator }

/-- `Alloc::create` from alloc.h:
`return (sz == 0) ? Alloc(_allocator) : Alloc(_allocator, sz);` where
`Alloc(_allocator)` holds a null pointer and zero size. -/
def Alloc.create (a : Alloc) (sz : Nat) : Alloc :=
  if sz = 0 then { ptr := none, sz := 0, allocator := a.allocator }
  else Alloc.allocate a.allocator sz

/-- Concrete wrapped environment, the spec's section 8 scenario: term 0 is a
3-sub-term phrase referencing field 3 (handle 1), term 1 a single term
referencing field 5 (handle 0). -/
def envW : QueryEnv :=
  { terms := [{ numTerms := 3, fields := [3], handle := 1 },
              { numTerms := 1, fields := [5], handle := 0 }],
    properties := 10, location := 11, attributeContext := 12,
    indexEnvironment := 13, averageFieldLength := fun _ => 7 }

/-- Concrete bound match data: the phrase handle 1 has occurrence positions
5 and 9 on field 3; everything else is empty. -/
def mdW : MatchData := fun h =>
  if h = 1 then
    { fieldId := 3,
      positions := [{ position := 5, elementId := 0, elementWeight := 10 },
                    { position := 9, elementId := 0, elementWeight := 10 }] }
  else { fieldId := 0, positions := [] }

theorem totalSynth_nil (f : Nat) : totalSynth f [] = 0 := rfl

theorem totalSynth_cons (f : Nat) (t : TermData) (ts : List TermData) :
    totalSynth f (t :: ts) = synthCount f t + totalSynth f ts := by
  simp [totalSynth]

/-- The one-pass construction scan, in closed form: it appends the
closed-form synthesized arena, instruction list and index map to the
accumulator, and advances the fresh-handle counter by the number of
synthesized terms. -/
theorem buildLoop_eq (f : Nat) (ts : List TermData) : ∀ (i : Nat) (st : BuildState),
    buildLoop f i ts st =
      { terms := st.terms ++ synthTermsOf f st.nextHandle ts,
        copyInfo := st.copyInfo ++ copyInfoOf f st.nextHandle ts,
        termIdxMap := st.termIdxMap ++ idxMapOf f i st.terms.length ts,
        nextHandle := st.nextHandle + totalSynth f ts } := by
  induction ts with
  | nil =>
    intro i st
    simp [buildLoop, synthTermsOf, copyInfoOf, idxMapOf, totalSynth]
  | cons t ts ih =>
    intro i st
    rw [buildLoop, ih]
    cases h : isSplitPhrase f t with
    | true =>
      simp [considerTerm, h, synthTermsOf, copyInfoOf, idxMapOf, totalSynth,
        synthCount, List.append_assoc, Nat.add_assoc]
    | false =>
      simp [considerTerm, h, synthTermsOf, copyInfoOf, idxMapOf, totalSynth,
        synthCount, List.append_assoc]

theorem mkSplitter_queryEnv (env : QueryEnv) (f : Nat) :
    (mkSplitter env f).queryEnv = env := rfl

theorem mkSplitter_terms (env : QueryEnv) (f : Nat) :
    (mkSplitter env f).terms = synthTermsOf f (maxHandleOf env + 1) env.terms := by
  simp [mkSplitter, buildLoop_eq]

theorem mkSplitter_copyInfo (env : QueryEnv) (f : Nat) :
    (mkSplitter env f).copyInfo = copyInfoOf f (maxHandleOf env + 1) env.terms := by
  simp [mkSplitter, buildLoop_eq]

theorem mkSplitter_termIdxMap (env : QueryEnv) (f : Nat) :
    (mkSplitter env f).termIdxMap = idxMapOf f 0 0 env.terms := by
  simp [mkSplitter, buildLoop_eq]

theorem foldl_max_init_le (ts : List TermData) : ∀ (a : Nat),
    a ≤ ts.foldl (fun m t => max m t.handle) a := by
  induction ts with
  | nil => intro a; simp
  | cons t ts ih =>
    intro a
    exact le_trans (Nat.le_max_left a t.handle) (ih (max a t.handle))

theorem handle_le_foldl_max (ts : List TermData) : ∀ (a : Nat) (t : TermData),
    t ∈ ts → t.handle ≤ ts.foldl (fun m t => max m t.handle) a := by
  induction ts with
  | nil => intro a t ht; cases ht
  | cons u ts ih =>
    intro a t ht
    rcases List.mem_cons.mp ht with h | h
    · subst h
      exact le_trans (Nat.le_max_right a t.handle) (foldl_max_init_le ts _)
    · exact ih (max a u.handle) t h

theorem handle_le_maxHandleOf (env : QueryEnv) (t : TermData) (ht : t ∈ env.terms) :
    t.handle ≤ maxHandleOf env :=
  handle_le_foldl_max env.terms 0 t ht

theorem copyInfoOf_map_split (f : Nat) (ts : List TermData) : ∀ (h0 : Nat),
    (copyInfoOf f h0 ts).map HowToCopy.split_handle =
      List.range' h0 (totalSynth f ts) := by
  induction ts with
  | nil => intro h0; simp [copyInfoOf, totalSynth]
  | cons t ts ih =>
    intro h0
    cases h : isSplitPhrase f t with
    | true =>
      have hcomp : (HowToCopy.split_handle ∘ fun k =>
          ({ orig_handle := t.handle, split_handle := h0 + k,
             offsetInPhrase := k } : HowToCopy)) = (fun k => h0 + k) := rfl
      simp only [copyInfoOf, h, if_true, List.map_append, List.map_map, ih,
        hcomp, totalSynth_cons, synthCount]
      rw [← List.range'_eq_map_range, List.range'_append_1, Nat.add_comm]
    | false =>
      simp [copyInfoOf, h, ih, totalSynth_cons, synthCount]

theorem copyInfoOf_mem_orig (f : Nat) (ts : List TermData) : ∀ (h0 : Nat)
    (c : HowToCopy), c ∈ copyInfoOf f h0 ts →
    ∃ t, t ∈ ts ∧ c.orig_handle = t.handle := by
  induction ts with
  | nil => intro h0 c hc; simp [copyInfoOf] at hc
  | cons t ts ih =>
    intro h0 c hc
    cases h : isSplitPhrase f t with
    | true =>
      rw [copyInfoOf, if_pos] at hc
      · rcases List.mem_append.mp hc with hl | hr
        · rcases List.mem_map.mp hl with ⟨k, _, hk⟩
          exact ⟨t, List.mem_cons_self t ts, by rw [← hk]⟩
        · rcases ih (h0 + t.numTerms) c hr with ⟨u, hu, he⟩
          exact ⟨u, List.mem_cons_of_mem t hu, he⟩
      · simp [h]
    | false =>
      rw [copyInfoOf, if_neg] at hc
      · rcases ih h0 c hc with ⟨u, hu, he⟩
        exact ⟨u, List.mem_cons_of_mem t hu, he⟩
      · simp [h]

theorem copyInfoOf_split_mem_range (f : Nat) (ts : List TermData) (h0 : Nat)
    (c : HowToCopy) (hc : c ∈ copyInfoOf f h0 ts) :
    c.split_handle ∈ List.range' h0 (totalSynth f ts) := by
  rw [← copyInfoOf_map_split]
  exact List.mem_map_of_mem _ hc

theorem copyInfoOf_split_ge (f : Nat) (ts : List TermData) (h0 : Nat)
    (c : HowToCopy) (hc : c ∈ copyInfoOf f h0 ts) : h0 ≤ c.split_handle := by
  rcases List.mem_range'.mp (copyInfoOf_split_mem_range f ts h0 c hc) with ⟨i, _, he⟩
  omega

theorem mkSplitter_splits_nodup (env : QueryEnv) (f : Nat) :
    ((mkSplitter env f).copyInfo.map HowToCopy.split_handle).Nodup := by
  rw [mkSplitter_copyInfo, copyInfoOf_map_split]
  exact List.nodup_range' _ _

theorem mkSplitter_orig_le_max (env : QueryEnv) (f : Nat) (c : HowToCopy)
    (hc : c ∈ (mkSplitter env f).copyInfo) : c.orig_handle ≤ maxHandleOf env := by
  rw [mkSplitter_copyInfo] at hc
  rcases copyInfoOf_mem_orig f env.terms _ c hc with ⟨t, ht, horig⟩
  rw [horig]
  exact handle_le_maxHandleOf env t ht

theorem mkSplitter_split_gt_max (env : QueryEnv) (f : Nat) (c : HowToCopy)
    (hc : c ∈ (mkSplitter env f).copyInfo) : maxHandleOf env < c.split_handle := by
  rw [mkSplitter_copyInfo] at hc
  have := copyInfoOf_split_ge f env.terms (maxHandleOf env + 1) c hc
  omega

theorem mkSplitter_orig_not_split (env : QueryEnv) (f : Nat) (c : HowToCopy)
    (hc : c ∈ (mkSplitter env f).copyInfo) :
    c.orig_handle ∉ (mkSplitter env f).copyInfo.map HowToCopy.split_handle := by
  intro hmem
  rcases List.mem_map.mp hmem with ⟨c', hc', he⟩
  have h1 := mkSplitter_orig_le_max env f c hc
  have h2 := mkSplitter_split_gt_max env f c' hc'
  omega

theorem foldl_copyOne_not_written (l : List HowToCopy) : ∀ (md : MatchData) (h : Nat),
    (∀ c ∈ l, c.split_handle ≠ h) → l.foldl copyOne md h = md h := by
  induction l with
  | nil => intro md h _; rfl
  | cons c l ih =>
    intro md h hall
    rw [List.foldl_cons,
      ih (copyOne md c) h (fun c' hc' => hall c' (List.mem_cons_of_mem c hc'))]
    simp [copyOne, MatchData.setHandle, Ne.symm (hall c (List.mem_cons_self c l))]

theorem foldl_copyOne_at_split (l : List HowToCopy) : ∀ (md : MatchData)
    (c : HowToCopy), c ∈ l → (l.map HowToCopy.split_handle).Nodup →
    (∀ c' ∈ l, c'.orig_handle ∉ l.map HowToCopy.split_handle) →
    l.foldl copyOne md c.split_handle =
      (md c.orig_handle).shifted c.offsetInPhrase := by
  induction l with
  | nil => intro md c hc _ _; cases hc
  | cons c0 l ih =>
    intro md c hc hnd hdisj
    have hnd1 : c0.split_handle ∉ l.map HowToCopy.split_handle :=
      (List.nodup_cons.mp (by simpa using hnd)).1
    have hnd2 : (l.map HowToCopy.split_handle).Nodup :=
      (List.nodup_cons.mp (by simpa using hnd)).2
    have hdisj' : ∀ c' ∈ l, c'.orig_handle ∉ l.map HowToCopy.split_handle := by
      intro c' hc' hmem
      exact hdisj c' (List.mem_cons_of_mem c0 hc')
        (by simp only [List.map_cons, List.mem_cons]; exact Or.inr hmem)
    rcases List.mem_cons.mp hc with he | hmem
    · subst he
      rw [List.foldl_cons,
        foldl_copyOne_not_written l (copyOne md c) c.split_handle
          (fun c' hc' heq => hnd1 (heq ▸ List.mem_map_of_mem _ hc'))]
      simp [copyOne, MatchData.setHandle]
    · rw [List.foldl_cons, ih (copyOne md c0) c hmem hnd2 hdisj']
      have horig : c.orig_handle ≠ c0.split_handle := by
        intro heq
        exact hdisj c (List.mem_cons_of_mem c0 hmem)
          (by simp only [List.map_cons, List.mem_cons]; exact Or.inl heq)
      simp [copyOne, MatchData.setHandle, horig]

theorem update_eval_at_split (env : QueryEnv) (f : Nat) (md : MatchData)
    (c : HowToCopy) (hc : c ∈ (mkSplitter env f).copyInfo) :
    (mkSplitter env f).update md c.split_handle =
      (md c.orig_handle).shifted c.offsetInPhrase :=
  foldl_copyOne_at_split _ md c hc (mkSplitter_splits_nodup env f)
    (fun c' h' => mkSplitter_orig_not_split env f c' h')

theorem update_eval_not_split (env : QueryEnv) (f : Nat) (md : MatchData) (h : Nat)
    (hh : h ∉ (mkSplitter env f).copyInfo.map HowToCopy.split_handle) :
    (mkSplitter env f).update md h = md h :=
  foldl_copyOne_not_written _ md h
    (fun _ hc heq => hh (heq ▸ List.mem_map_of_mem _ hc))

theorem synthTermsOf_length (f : Nat) (ts : List TermData) : ∀ (h0 : Nat),
    (synthTermsOf f h0 ts).length = totalSynth f ts := by
  induction ts with
  | nil => intro h0; simp [synthTermsOf, totalSynth]
  | cons t ts ih =>
    intro h0
    cases h : isSplitPhrase f t with
    | true => simp [synthTermsOf, h, ih, totalSynth_cons, synthCount]
    | false => simp [synthTermsOf, h, ih, totalSynth_cons, synthCount]

theorem idxMapOf_length (f : Nat) (ts : List TermData) : ∀ (i b : Nat),
    (idxMapOf f i b ts).length =
      ts.countP (fun t => !isSplitPhrase f t) +
        ((ts.filter (isSplitPhrase f)).map TermData.numTerms).sum := by
  induction ts with
  | nil => intro i b; simp [idxMapOf]
  | cons t ts ih =>
    intro i b
    cases h : isSplitPhrase f t with
    | true =>
      simp [idxMapOf, h, ih, List.countP_cons, List.filter_cons]
      omega
    | false =>
      simp [idxMapOf, h, ih, List.countP_cons, List.filter_cons]
      omega

theorem idxMapOf_mem_bounds (f : Nat) (ts : List TermData) : ∀ (i b : Nat)
    (e : TermIdx), e ∈ idxMapOf f i b ts →
    (e.splitted = true → b ≤ e.idx ∧ e.idx < b + totalSynth f ts) ∧
    (e.splitted = false → e.idx < i + ts.length) := by
  induction ts with
  | nil => intro i b e he; simp [idxMapOf] at he
  | cons t ts ih =>
    intro i b e he
    cases h : isSplitPhrase f t with
    | true =>
      rw [idxMapOf, if_pos (by simp [h])] at he
      rcases List.mem_append.mp he with hl | hr
      · rcases List.mem_map.mp hl with ⟨k, hk, he'⟩
        subst he'
        have hkn : k < t.numTerms := List.mem_range.mp hk
        refine ⟨fun _ => ?_, fun hfalse => by simp at hfalse⟩
        simp only [totalSynth_cons, synthCount, h, if_pos]
        constructor
        · omega
        · omega
      · have hb := ih (i + 1) (b + t.numTerms) e hr
        refine ⟨fun hs => ?_, fun hs => ?_⟩
        · have h2 := hb.1 hs
          simp only [totalSynth_cons, synthCount, h, if_pos]
          omega
        · have h2 := hb.2 hs
          simp only [List.length_cons]
          omega
    | false =>
      rw [idxMapOf, if_neg (by simp [h])] at he
      rcases List.mem_cons.mp he with he' | hr
      · subst he'
        refine ⟨fun htrue => by simp at htrue, fun _ => ?_⟩
        simp only [List.length_cons, TermIdx.idx]
        omega
      · have hb := ih (i + 1) b e hr
        refine ⟨fun hs => ?_, fun hs => ?_⟩
        · have h2 := hb.1 hs
          simp only [totalSynth_cons, synthCount, h]
          omega
        · have h2 := hb.2 hs
          simp only [List.length_cons]
          omega

theorem getTerm_none_eq (ps : PhraseSplitterQueryEnv) (idx : Nat)
    (h : ps.termIdxMap[idx]? = none) : ps.getTerm idx = none := by
  simp [PhraseSplitterQueryEnv.getTerm, h]

theorem getTerm_some_eq (ps : PhraseSplitterQueryEnv) (idx : Nat) (ti : TermIdx)
    (h : ps.termIdxMap[idx]? = some ti) :
    ps.getTerm idx =
      if ti.splitted then ps.terms[ti.idx]? else ps.queryEnv.getTerm ti.idx := by
  simp [PhraseSplitterQueryEnv.getTerm, h]

/-- C1: after the Match-Data Bridge runs, for every propagation instruction of
the constructed splitter, the entry stored under the synthesized handle is
the entry recorded under the phrase's original handle with every occurrence
position increased by the sub-term's zero-based offset in the phrase, and
with field identifier, element identifier and weight metadata unchanged. -/
theorem bridge_position_correction (env : QueryEnv) (f : Nat) (md : MatchData)
    (c : HowToCopy) (hc : c ∈ (mkSplitter env f).copyInfo) :
    (mkSplitter env f).update md c.split_handle =
      { fieldId := (md c.orig_handle).fieldId,
        positions := (md c.orig_handle).positions.map
          (fun p => { position := p.position + c.offsetInPhrase,
                      elementId := p.elementId,
                      elementWeight := p.elementWeight }) } := by
  rw [update_eval_at_split env f md c hc]
  rfl

theorem bridge_position_correction_witness :
    (⟨1, 3, 1⟩ : HowToCopy) ∈ (mkSplitter envW 3).copyInfo ∧
    (mkSplitter envW 3).update mdW 3 =
      { fieldId := 3,
        positions := [{ position := 6, elementId := 0, elementWeight := 10 },
                      { position := 10, elementId := 0, elementWeight := 10 }] } :=
  ⟨by decide,
    (bridge_position_correction envW 3 mdW ⟨1, 3, 1⟩ (by decide)).trans (by decide)⟩

/-- C2: for every input environment, every handle assigned to a synthesized
term is strictly greater than the maximum handle observed among the original
terms — hence distinct from every original handle — and the synthesized
handles are assigned sequentially starting at `max_handle + 1`. -/
theorem handle_namespace_disjoint (env : QueryEnv) (f : Nat) (c : HowToCopy)
    (hc : c ∈ (mkSplitter env f).copyInfo) (t : TermData) (ht : t ∈ env.terms) :
    maxHandleOf env < c.split_handle ∧ c.split_handle ≠ t.handle ∧
      (mkSplitter env f).copyInfo.map HowToCopy.split_handle =
        List.range' (maxHandleOf env + 1) (totalSynth f env.terms) := by
  have h1 := mkSplitter_split_gt_max env f c hc
  have h2 := handle_le_maxHandleOf env t ht
  refine ⟨h1, by omega, ?_⟩
  rw [mkSplitter_copyInfo, copyInfoOf_map_split]

theorem handle_namespace_disjoint_witness :
    (⟨1, 2, 0⟩ : HowToCopy) ∈ (mkSplitter envW 3).copyInfo ∧
    (⟨3, [3], 1⟩ : TermData) ∈ envW.terms ∧
    (maxHandleOf envW < 2 ∧ (2 : Nat) ≠ 1 ∧
      (mkSplitter envW 3).copyInfo.map HowToCopy.split_handle =
        List.range' 2 3) :=
  ⟨by decide, by decide,
    handle_namespace_disjoint envW 3 ⟨1, 2, 0⟩ (by decide) ⟨3, [3], 1⟩ (by decide)⟩

/-- C3: `term_count()` equals the length of the Term Index Map, which equals
the number of pass-through original terms plus the sum of the sub-term
counts over all split phrases. -/
theorem term_count_formula (env : QueryEnv) (f : Nat) :
    (mkSplitter env f).getNumTerms = (mkSplitter env f).termIdxMap.length ∧
    (mkSplitter env f).getNumTerms =
      env.terms.countP (fun t => !isSplitPhrase f t) +
        ((env.terms.filter (isSplitPhrase f)).map TermData.numTerms).sum := by
  refine ⟨rfl, ?_⟩
  show (mkSplitter env f).termIdxMap.length = _
  rw [mkSplitter_termIdxMap, idxMapOf_length]

/-- C4: `term(idx)` on the constructed facade returns a present result if and
only if `idx < term_count()`; out of range it returns the "no term"
sentinel `none`. -/
theorem getTerm_present_iff (env : QueryEnv) (f : Nat) (idx : Nat) :
    ((mkSplitter env f).getTerm idx).isSome = true ↔
      idx < (mkSplitter env f).getNumTerms := by
  constructor
  · intro hsome
    by_contra hge
    have hnone : (mkSplitter env f).termIdxMap[idx]? = none :=
      List.getElem?_eq_none (by
        simp only [PhraseSplitterQueryEnv.getNumTerms] at hge; omega)
    rw [getTerm_none_eq _ _ hnone] at hsome
    simp at hsome
  · intro hlt
    have hlen : idx < (mkSplitter env f).termIdxMap.length := hlt
    cases hex : (mkSplitter env f).termIdxMap[idx]? with
    | none =>
      rw [List.getElem?_eq_none_iff] at hex
      omega
    | some ti =>
      have hmem : ti ∈ idxMapOf f 0 0 env.terms := by
        rw [← mkSplitter_termIdxMap]
        rcases List.getElem?_eq_some_iff.mp hex with ⟨hl, he⟩
        rw [← he]
        exact List.getElem_mem hl
      have hb := idxMapOf_mem_bounds f env.terms 0 0 ti hmem
      rw [getTerm_some_eq _ _ _ hex]
      cases hs : ti.splitted with
      | true =>
        have hterms : ti.idx < (mkSplitter env f).terms.length := by
          rw [mkSplitter_terms, synthTermsOf_length]
          have := (hb.1 hs).2
          omega
        simp [hs, List.getElem?_eq_getElem hterms]
      | false =>
        have henv : ti.idx < env.terms.length := by
          have := hb.2 hs
          omega
        simp [hs, mkSplitter_queryEnv, QueryEnv.getTerm,
          List.getElem?_eq_getElem henv]

theorem getTerm_present_iff_witness :
    (((mkSplitter envW 3).getTerm 2).isSome = true) ∧
    (((mkSplitter envW 3).getTerm 4).isSome = false) :=
  ⟨(getTerm_present_iff envW 3 2).mpr (by decide),
    by
      have h := getTerm_present_iff envW 3 4
      revert h
      decide⟩

/-- C5: for every in-range index, `term(idx)` resolves through the Term Index
Map entry: a non-synthesized entry delegates to the wrapped environment's
`term(slot_index)` unchanged (and that slot is in range in the wrapped
environment); a synthesized entry returns the Synthesized Term stored at
`slot_index` in the facade's own collection (and that slot is in range). -/
theorem getTerm_resolution (env : QueryEnv) (f : Nat) (idx : Nat) (ti : TermIdx)
    (hti : (mkSplitter env f).termIdxMap[idx]? = some ti) :
    (ti.splitted = true → ti.idx < (mkSplitter env f).terms.length ∧
        (mkSplitter env f).getTerm idx = (mkSplitter env f).terms[ti.idx]?) ∧
    (ti.splitted = false → ti.idx < env.terms.length ∧
        (mkSplitter env f).getTerm idx = env.getTerm ti.idx) := by
  have hmem : ti ∈ (mkSplitter env f).termIdxMap := by
    have := List.getElem?_eq_some_iff.mp hti
    rcases this with ⟨hlen, heq⟩
    rw [← heq]
    exact List.getElem_mem hlen
  rw [mkSplitter_termIdxMap] at hmem
  have hb := idxMapOf_mem_bounds f env.terms 0 0 ti hmem
  constructor
  · intro hs
    refine ⟨?_, ?_⟩
    · rw [mkSplitter_terms, synthTermsOf_length]
      have := (hb.1 hs).2
      omega
    · rw [getTerm_some_eq _ _ _ hti]
      simp [hs]
  · intro hs
    refine ⟨?_, ?_⟩
    · have := hb.2 hs
      omega
    · rw [getTerm_some_eq _ _ _ hti]
      simp [hs, mkSplitter_queryEnv]

theorem getTerm_resolution_witness :
    ((mkSplitter envW 3).termIdxMap[3]? = some ⟨1, false⟩) ∧
    (1 < envW.terms.length ∧
      (mkSplitter envW 3).getTerm 3 = envW.getTerm 1) :=
  ⟨by decide,
    (getTerm_resolution envW 3 3 ⟨1, false⟩ (by decide)).2 (by decide)⟩

/-- C6: the constructed splitter's structures are exactly the closed forms
that walk the original terms in their relative order: the Term Index Map is
the in-order concatenation of per-term blocks, a split phrase contributing
its sub-terms on consecutive public slots with ascending arena indices
(offsets `0..N-1`) in place of its one original slot, a pass-through term
contributing its single original-index slot; the synthesized arena and the
instruction list follow the same in-order block structure. -/
theorem slot_ordering (env : QueryEnv) (f : Nat) :
    (mkSplitter env f).termIdxMap = idxMapOf f 0 0 env.terms ∧
    (mkSplitter env f).terms = synthTermsOf f (maxHandleOf env + 1) env.terms ∧
    (mkSplitter env f).copyInfo = copyInfoOf f (maxHandleOf env + 1) env.terms :=
  ⟨mkSplitter_termIdxMap env f, mkSplitter_terms env f, mkSplitter_copyInfo env f⟩

/-- C7: the Match-Data Bridge is idempotent — running it a second time
against the same bound match data leaves every entry identical to what the
first run produced, because each instruction replaces (rather than
accumulates into) the value under its synthesized handle. -/
theorem update_idempotent (env : QueryEnv) (f : Nat) (md : MatchData) :
    (mkSplitter env f).update ((mkSplitter env f).update md) =
      (mkSplitter env f).update md := by
  funext h
  by_cases hmem : h ∈ (mkSplitter env f).copyInfo.map HowToCopy.split_handle
  · rcases List.mem_map.mp hmem with ⟨c, hc, hce⟩
    subst hce
    rw [update_eval_at_split env f _ c hc, update_eval_at_split env f md c hc,
      update_eval_not_split env f md c.orig_handle
        (mkSplitter_orig_not_split env f c hc)]
  · rw [update_eval_not_split env f _ h hmem]

/-- C8: the facade's `getProperties`, `getLocation`, `getAttributeContext`,
`getIndexEnvironment` and `get_average_field_length` forward exactly to the
wrapped environment's corresponding operation, and the facade holds the
wrapped environment unchanged. -/
theorem facade_forwarding (env : QueryEnv) (f : Nat) :
    (mkSplitter env f).getProperties = env.getProperties ∧
    (mkSplitter env f).getLocation = env.getLocation ∧
    (mkSplitter env f).getAttributeContext = env.getAttributeContext ∧
    (mkSplitter env f).getIndexEnvironment = env.getIndexEnvironment ∧
    (∀ s : String, (mkSplitter env f).get_average_field_length s =
      env.get_average_field_length s) ∧
    (mkSplitter env f).queryEnv = env :=
  ⟨rfl, rfl, rfl, rfl, fun _ => rfl, rfl⟩

/-- C10: a moved-from `Alloc` (move construction or move assignment) is left
in the empty state — null pointer, zero size, null allocator — while the
destination takes over the allocation unchanged; and `create(0)` yields a
null, zero-sized allocation that retains the same allocator. -/
theorem alloc_moved_from_empty (a lhs : Alloc) :
    (a.moveCtor).1 = a ∧
    (a.moveCtor).2.get = none ∧ (a.moveCtor).2.size = 0 ∧
    (a.moveCtor).2.allocator = none ∧
    (Alloc.moveAssign lhs a).1 = a ∧
    (Alloc.moveAssign lhs a).2.get = none ∧ (Alloc.moveAssign lhs a).2.size = 0 ∧
    (Alloc.moveAssign lhs a).2.allocator = none ∧
    (a.create 0).get = none ∧ (a.create 0).size = 0 ∧
    (a.create 0).allocator = a.allocator := by
  refine ⟨rfl, rfl, rfl, rfl, rfl, rfl, rfl, rfl, ?_, ?_, ?_⟩ <;>
    simp [Alloc.create, Alloc.get, Alloc.size]

theorem msbIdxAux_bounds (fuel : Nat) : ∀ (v : Nat), 1 ≤ v → v ≤ fuel →
    2 ^ msbIdxAux fuel v ≤ v ∧ v < 2 ^ (msbIdxAux fuel v + 1) := by
  induction fuel with
  | zero => intro v h1 h2; omega
  | succ fuel ih =>
    intro v h1 h2
    rw [msbIdxAux]
    by_cases hc : 2 ≤ v
    · have hdiv : 1 ≤ v / 2 := by omega
      have hfuel : v / 2 ≤ fuel := by omega
      rcases ih (v / 2) hdiv hfuel with ⟨hlo, hhi⟩
      rw [if_pos hc]
      have e1 : 2 ^ (msbIdxAux fuel (v / 2) + 1) = 2 ^ msbIdxAux fuel (v / 2) * 2 :=
        Nat.pow_succ 2 _
      have e2 : 2 ^ (msbIdxAux fuel (v / 2) + 1 + 1) =
          2 ^ (msbIdxAux fuel (v / 2) + 1) * 2 := Nat.pow_succ 2 _
      omega
    · rw [if_neg hc]
      have hv : v = 1 := by omega
      subst hv
      simp
  
theorem msbIdx_bounds (v : Nat) (h : 1 ≤ v) :
    2 ^ msbIdx v ≤ v ∧ v < 2 ^ (msbIdx v + 1) :=
  msbIdxAux_bounds v v h le_rfl

/-- C9 (amended): for `2 ≤ minimum ≤ 2^63`, `roundUp2inN` returns the
smallest power of two greater than or equal to `minimum`; for
`minimum == 1` it returns 2, not 1.  (Above `2^63` the left shift wraps
around 64-bit `size_t`, see the counterexample.) -/
theorem roundUp2inN_least :
    roundUp2inN 1 = 2 ∧
    ∀ m : Nat, 2 ≤ m → m ≤ 2 ^ 63 →
      (∃ k : Nat, roundUp2inN m = 2 ^ k) ∧ m ≤ roundUp2inN m ∧
      ∀ j : Nat, m ≤ 2 ^ j → roundUp2inN m ≤ 2 ^ j := by
  constructor
  · decide
  · intro m h1 h2
    have hm1 : (m + (2 ^ 64 - 1)) % 2 ^ 64 = m - 1 := by
      have he : m + (2 ^ 64 - 1) = (m - 1) + 2 ^ 64 := by omega
      rw [he, Nat.add_mod_right, Nat.mod_eq_of_lt (by omega)]
    rcases msbIdx_bounds (m - 1) (by omega) with ⟨hlo, hhi⟩
    have hL : msbIdx (m - 1) ≤ 62 := by
      by_contra hgt
      have hp : 2 ^ 63 ≤ 2 ^ msbIdx (m - 1) :=
        Nat.pow_le_pow_right (by norm_num) (by omega)
      omega
    have hval : roundUp2inN m = 2 ^ (msbIdx (m - 1) + 1) := by
      rw [roundUp2inN, hm1]
      have hpow : 2 * 2 ^ msbIdx (m - 1) = 2 ^ (msbIdx (m - 1) + 1) := by
        rw [Nat.pow_succ]
        omega
      rw [hpow]
      refine Nat.mod_eq_of_lt ?_
      have hle : 2 ^ (msbIdx (m - 1) + 1) ≤ 2 ^ 63 :=
        Nat.pow_le_pow_right (by norm_num) (by omega)
      omega
    refine ⟨⟨msbIdx (m - 1) + 1, hval⟩, ?_, ?_⟩
    · rw [hval]
      omega
    · intro j hj
      rw [hval]
      by_cases hjL : j ≤ msbIdx (m - 1)
      · exfalso
        have hp : 2 ^ j ≤ 2 ^ msbIdx (m - 1) :=
          Nat.pow_le_pow_right (by norm_num) hjL
        omega
      · exact Nat.pow_le_pow_right (by norm_num) (by omega)

theorem roundUp2inN_least_witness :
    roundUp2inN 1 = 2 ∧ roundUp2inN 5 = 8 ∧
    ((2 : Nat) ≤ 5 ∧ (5 : Nat) ≤ 2 ^ 63) ∧ 5 ≤ roundUp2inN 5 ∧
    roundUp2inN 5 ≤ 2 ^ 3 :=
  ⟨roundUp2inN_least.1, by decide, ⟨by decide, by decide⟩,
    (roundUp2inN_least.2 5 (by decide) (by decide)).2.1,
    (roundUp2inN_least.2 5 (by decide) (by decide)).2.2 3 (by decide)⟩

/-- C9 counterexample: at `minimum = 2^63 + 1` the shift `2ul << 63` wraps
modulo `2^64`, so `roundUp2inN` returns 0 — not the smallest power of two
greater than or equal to `minimum` (it is not even `≥ minimum`). -/
theorem roundUp2inN_overflow :
    roundUp2inN (2 ^ 63 + 1) = 0 ∧ ¬ (2 ^ 63 + 1 ≤ roundUp2inN (2 ^ 63 + 1)) := by
  have harg : (2 ^ 63 + 1 + (2 ^ 64 - 1)) % 2 ^ 64 = 2 ^ 63 := by
    have he : 2 ^ 63 + 1 + (2 ^ 64 - 1) = 2 ^ 63 + 2 ^ 64 := by norm_num
    rw [he, Nat.add_mod_right, Nat.mod_eq_of_lt (by norm_num)]
  have hmsb : msbIdx (2 ^ 63) = 63 := by
    rcases msbIdx_bounds (2 ^ 63) (by norm_num) with ⟨hlo, hhi⟩
    rcases Nat.lt_or_ge (msbIdx (2 ^ 63)) 63 with hlt | hge
    · exfalso
      have hp : 2 ^ (msbIdx (2 ^ 63) + 1) ≤ 2 ^ 63 :=
        Nat.pow_le_pow_right (by norm_num) (by omega)
      omega
    · rcases Nat.lt_or_ge 63 (msbIdx (2 ^ 63)) with hgt | hle
      · exfalso
        have hp : 2 ^ 64 ≤ 2 ^ msbIdx (2 ^ 63) :=
          Nat.pow_le_pow_right (by norm_num) (by omega)
        omega
      · omega
  have h0 : roundUp2inN (2 ^ 63 + 1) = 0 := by
    rw [roundUp2inN, harg, hmsb]
    norm_num
  exact ⟨h0, by rw [h0]; omega⟩
